import Mathlib

/-!
Verification of the rspy host-activity monitor (kozmer/rspy).

This file shallowly embeds the core subsystems of the Rust source —
the process-table scanner (src/monitoring/process.rs), the D-Bus census
scanner (src/monitoring/dbus.rs), the inotify event decoder and watch
registration (src/monitoring/filesystem.rs), and the scan scheduler
(src/monitoring/scanner.rs) — and proves or refutes the frozen claims
about them.

Conventions of the embedding:
- OS-dependent calls (procfs lookups, inotify_add_watch, WalkDir, the
  D-Bus remote call) are passed in as explicit oracle functions, so a
  run of an embedded function corresponds to one execution of the Rust
  code under a fixed environment.
- Hash sets (`HashSet`, `FxHashSet`) are modelled as `Finset`, since
  the code never relies on their iteration order for the claims at hand.
- Wall-clock time is discrete in milliseconds (`Nat`), and scans are
  idealized as instantaneous; `Instant::now()` samples are made explicit
  in the scheduler's step function.
-/

namespace Rspy

/-! ## Constants (src/core/constants.rs) -/

def DEFAULT_SCAN_INTERVAL_MS : Nat := 100

def SCANNER_MAX_TIMEOUT_SECS : Nat := 1

def UNKNOWN_COMMAND : String := "<unknown command>"

/-! ## ProcessScanner (src/monitoring/process.rs)

`scan_processes` enumerates the process table, diffs it against the
`seen_pids` set, reports newly seen PIDs through `process_new_pid`, and
prunes `seen_pids` to the PIDs alive in the current snapshot.
-/

/-- Oracle for the per-PID procfs lookups done by `process_new_pid`:
`newOk pid` is whether `Process::new(pid)` succeeds, `cmdline pid` the
result of `.cmdline()` (`none` = unreadable), and `ruid pid` the real
uid from `.status()` (`none` = status record unreadable). -/
structure MetaOracle where
  newOk : Int → Bool
  cmdline : Int → Option String
  ruid : Int → Option Nat

/-- A structured "process observed" event sent to the log sink by
`Logger::event(Some(uid), pid, &cmdline)`. -/
structure PEvent where
  uid : Option Nat
  pid : Int
  cmd : String
deriving DecidableEq, Repr

/-- `ProcessScanner::process_new_pid`: `Process::new(pid)?`, then
`.cmdline()` with the `UNKNOWN_COMMAND` fallback, then `.status()?`
for the real uid; on success one event is emitted. `none` models the
`Err` return (no event emitted). -/
def process_new_pid (o : MetaOracle) (pid : Int) : Option PEvent :=
  if o.newOk pid then
    let cmdline := (o.cmdline pid).getD UNKNOWN_COMMAND
    match o.ruid pid with
    | some uid => some ⟨some uid, pid, cmdline⟩
    | none => none
  else none

/-- The scanner's persistent state: the `seen_pids` hash set.
(`current_pids` and `new_pids` are per-scan scratch buffers.) -/
structure ProcessScanner where
  seen_pids : Finset Int
deriving DecidableEq

/-- First loop of `scan_processes`: for each enumerated process, insert
its pid into `current_pids`, and if `seen_pids.insert(pid)` newly
inserted, push it onto `new_pids`. Returns (current, seen, new). -/
def collectPids (procs : List Int) (current seen : Finset Int)
    (news : List Int) : Finset Int × Finset Int × List Int :=
  match procs with
  | [] => (current, seen, news)
  | pid :: rest =>
      if pid ∈ seen then
        collectPids rest (insert pid current) seen news
      else
        collectPids rest (insert pid current) (insert pid seen) (news ++ [pid])

/-- Second loop of `scan_processes`: for each pid of `new_pids`, run
`process_new_pid`; on success count it (the event reaches the sink),
on failure remove the pid from `seen_pids` again.
Returns (new_count, seen, emitted events). -/
def reportNewPids (o : MetaOracle) (newPids : List Int) (count : Nat)
    (seen : Finset Int) (events : List PEvent) :
    Nat × Finset Int × List PEvent :=
  match newPids with
  | [] => (count, seen, events)
  | pid :: rest =>
      match process_new_pid o pid with
      | some ev => reportNewPids o rest (count + 1) seen (events ++ [ev])
      | none => reportNewPids o rest count (seen.erase pid) events

/-- `ProcessScanner::scan_processes`. The snapshot argument models the
result of `all_processes()`: `.error` is an enumeration failure, which
the `?` operator returns before any state is touched. On success the
two loops run and `seen_pids` is retained to its intersection with
`current_pids`. Returns (state after, result, events emitted). -/
def scan_processes (o : MetaOracle) (s : ProcessScanner)
    (snapshot : Except Unit (List Int)) :
    ProcessScanner × Except Unit Nat × List PEvent :=
  match snapshot with
  | .error e => (s, .error e, [])
  | .ok procs =>
      let c := collectPids procs ∅ s.seen_pids []
      let r := reportNewPids o c.2.2 0 c.2.1 []
      (⟨r.2.1 ∩ c.1⟩, .ok r.1, r.2.2)

/-- State after feeding a list of snapshots (each a successful
enumeration) to one `ProcessScanner`, starting from the given state. -/
def seenAfter (o : MetaOracle) (s : ProcessScanner)
    (snaps : List (List Int)) : ProcessScanner :=
  snaps.foldl (fun st snap => (scan_processes o st (.ok snap)).1) s

/-- The events emitted while scanning the `i`-th snapshot of the run
that starts from the empty `seen_pids` set. -/
def eventsAt (o : MetaOracle) (snaps : List (List Int)) (i : Nat) :
    List PEvent :=
  (scan_processes o (seenAfter o ⟨∅⟩ (snaps.take i)) (.ok (snaps.getD i []))).2.2

/-! ### Lemmas about the two scan loops -/

theorem collectPids_current (procs : List Int) (cur seen : Finset Int)
    (news : List Int) :
    (collectPids procs cur seen news).1 = cur ∪ procs.toFinset := by
  induction procs generalizing cur seen news with
  | nil => simp [collectPids]
  | cons p rest ih =>
      by_cases h : p ∈ seen <;>
        simp [collectPids, h, ih, Finset.insert_union, Finset.union_insert]

theorem collectPids_seen (procs : List Int) (cur seen : Finset Int)
    (news : List Int) :
    (collectPids procs cur seen news).2.1 = seen ∪ procs.toFinset := by
  induction procs generalizing cur seen news with
  | nil => simp [collectPids]
  | cons p rest ih =>
      by_cases h : p ∈ seen
      · have : insert p (seen ∪ rest.toFinset) = seen ∪ rest.toFinset :=
          Finset.insert_eq_self.mpr (Finset.mem_union_left _ h)
        simp [collectPids, h, ih, Finset.union_insert, this]
      · simp [collectPids, h, ih, Finset.insert_union, Finset.union_insert]

theorem collectPids_news_mem (procs : List Int) (cur seen : Finset Int)
    (news : List Int) (q : Int) :
    q ∈ (collectPids procs cur seen news).2.2 ↔
      q ∈ news ∨ (q ∈ procs ∧ q ∉ seen) := by
  induction procs generalizing cur seen news with
  | nil => simp [collectPids]
  | cons p rest ih =>
      by_cases h : p ∈ seen
      · rw [collectPids, if_pos h, ih]
        by_cases hq : q = p
        · subst hq; simp [h]
        · simp [hq]
      · rw [collectPids, if_neg h, ih]
        by_cases hq : q = p
        · subst hq; simp [h]
        · simp [hq]

theorem collectPids_news_nodup (procs : List Int) (cur seen : Finset Int)
    (news : List Int) (hnd : news.Nodup) (hsub : ∀ q ∈ news, q ∈ seen) :
    (collectPids procs cur seen news).2.2.Nodup := by
  induction procs generalizing cur seen news with
  | nil => simpa [collectPids] using hnd
  | cons p rest ih =>
      by_cases h : p ∈ seen
      · rw [collectPids, if_pos h]; exact ih _ _ _ hnd hsub
      · rw [collectPids, if_neg h]
        refine ih _ _ _ ?_ ?_
        · have hp : p ∉ news := fun hmem => h (hsub p hmem)
          simp [List.nodup_append, hnd, hp]
        · intro q hq
          rcases List.mem_append.mp hq with hq | hq
          · exact Finset.mem_insert_of_mem (hsub q hq)
          · simp at hq; subst hq; exact Finset.mem_insert_self _ _

theorem process_new_pid_pid (o : MetaOracle) (p : Int) (ev : PEvent)
    (h : process_new_pid o p = some ev) : ev.pid = p := by
  unfold process_new_pid at h
  by_cases hok : o.newOk p = true
  · rw [if_pos hok] at h
    cases hu : o.ruid p with
    | none => rw [hu] at h; simp at h
    | some u => rw [hu] at h; simp at h; rw [← h]
  · rw [if_neg hok] at h; simp at h

theorem reportNewPids_events (o : MetaOracle) (l : List Int) (c : Nat)
    (seen : Finset Int) (evs : List PEvent) :
    (reportNewPids o l c seen evs).2.2 =
      evs ++ l.filterMap (fun p => process_new_pid o p) := by
  induction l generalizing c seen evs with
  | nil => simp [reportNewPids]
  | cons p rest ih =>
      cases h : process_new_pid o p <;> simp [reportNewPids, h, ih]

theorem reportNewPids_count (o : MetaOracle) (l : List Int) (c : Nat)
    (seen : Finset Int) (evs : List PEvent) :
    (reportNewPids o l c seen evs).1 =
      c + (l.filterMap (fun p => process_new_pid o p)).length := by
  induction l generalizing c seen evs with
  | nil => simp [reportNewPids]
  | cons p rest ih =>
      cases h : process_new_pid o p with
      | none => simp [reportNewPids, h, ih]
      | some ev => simp [reportNewPids, h, ih]; omega

theorem reportNewPids_seen_mem (o : MetaOracle) (l : List Int) (c : Nat)
    (seen : Finset Int) (evs : List PEvent) (q : Int) :
    q ∈ (reportNewPids o l c seen evs).2.1 ↔
      q ∈ seen ∧ ¬(q ∈ l ∧ process_new_pid o q = none) := by
  induction l generalizing c seen evs with
  | nil => simp [reportNewPids]
  | cons p rest ih =>
      cases h : process_new_pid o p with
      | some ev =>
          rw [reportNewPids, h, ih]
          by_cases hq : q = p
          · subst hq; simp [h]
          · simp [hq]
      | none =>
          rw [reportNewPids, h, ih]
          by_cases hq : q = p
          · subst hq; simp [h]
          · simp [hq, Finset.mem_erase]

theorem filterMap_pids (o : MetaOracle)
    (hok : ∀ pid, (process_new_pid o pid).isSome = true) (l : List Int) :
    (l.filterMap (fun p => process_new_pid o p)).map PEvent.pid = l := by
  induction l with
  | nil => simp
  | cons p rest ih =>
      cases h : process_new_pid o p with
      | none => exact absurd (hok p) (by simp [h])
      | some ev => simp [h, process_new_pid_pid o p ev h, ih]

/-- When every per-PID lookup succeeds, `seen_pids` after a scan is
exactly the PID set of the snapshot, whatever the previous state. -/
theorem scan_seen_ok (o : MetaOracle)
    (hok : ∀ pid, (process_new_pid o pid).isSome = true)
    (s : ProcessScanner) (snap : List Int) :
    (scan_processes o s (.ok snap)).1.seen_pids = snap.toFinset := by
  unfold scan_processes
  ext q
  rw [Finset.mem_inter, reportNewPids_seen_mem, collectPids_current,
    collectPids_seen]
  have hq := hok q
  constructor
  · rintro ⟨⟨_, _⟩, hc⟩
    simpa using hc
  · intro hqs
    refine ⟨⟨Finset.mem_union_right _ (List.mem_toFinset.mpr ?_), ?_⟩, by simpa using hqs⟩
    · exact List.mem_toFinset.mp hqs
    · rintro ⟨_, hnone⟩
      rw [hnone] at hq
      simp at hq

/-- When every per-PID lookup succeeds, a scan emits exactly one event
per PID that is in the snapshot but not in the previous seen set, with
no duplicates. -/
theorem scan_events_ok (o : MetaOracle)
    (hok : ∀ pid, (process_new_pid o pid).isSome = true)
    (s : ProcessScanner) (snap : List Int) :
    (∀ pid, pid ∈ ((scan_processes o s (.ok snap)).2.2.map PEvent.pid) ↔
        (pid ∈ snap ∧ pid ∉ s.seen_pids))
    ∧ ((scan_processes o s (.ok snap)).2.2.map PEvent.pid).Nodup := by
  unfold scan_processes
  rw [reportNewPids_events]
  simp only [List.nil_append, filterMap_pids o hok]
  constructor
  · intro pid
    simpa using collectPids_news_mem snap ∅ s.seen_pids [] pid
  · exact collectPids_news_nodup snap ∅ s.seen_pids [] (by simp) (by simp)

theorem seenAfter_append (o : MetaOracle) (s : ProcessScanner)
    (l1 l2 : List (List Int)) :
    seenAfter o s (l1 ++ l2) = seenAfter o (seenAfter o s l1) l2 :=
  List.foldl_append _ _ _ _

/-- After processing the first `j+1` snapshots with an all-successful
oracle, the seen set is the PID set of snapshot `j`. -/
theorem seenAfter_take (o : MetaOracle)
    (hok : ∀ pid, (process_new_pid o pid).isSome = true)
    (snaps : List (List Int)) (j : Nat) (hj : j < snaps.length) :
    (seenAfter o ⟨∅⟩ (snaps.take (j + 1))).seen_pids =
      (snaps.getD j []).toFinset := by
  have h1 : snaps.take (j + 1) = snaps.take j ++ [snaps.getD j []] := by
    rw [List.take_succ]
    congr 1
    rw [List.getD_eq_getElem?_getD]
    cases h : snaps[j]? with
    | none => exact absurd (List.getElem?_eq_none_iff.mp h) (by omega)
    | some v => simp
  rw [h1, seenAfter_append]
  show (scan_processes o _ (.ok _)).1.seen_pids = _
  exact scan_seen_ok o hok _ _

/-- An oracle on which every per-PID lookup succeeds. -/
def oracleAllOk : MetaOracle :=
  ⟨fun _ => true, fun _ => some "proc", fun _ => some 0⟩

theorem oracleAllOk_isSome :
    ∀ pid, (process_new_pid oracleAllOk pid).isSome = true := by
  intro pid
  simp [process_new_pid, oracleAllOk]

/-- **C2.** For any sequence of process-table snapshots fed to
`ProcessScanner::scan_processes` (with per-PID metadata resolution
succeeding; failures are claim C6's subject), a PID is reported to the
log sink in scan `i` exactly when it is present in snapshot `i` and
absent from snapshot `i-1` (or `i = 0`), at most once per scan; and
after a snapshot from which it is absent, it is evicted from the seen
set, so a later re-appearance is reported again. -/
theorem scan_processes_report_per_interval (o : MetaOracle)
    (hok : ∀ pid, (process_new_pid o pid).isSome = true)
    (snaps : List (List Int)) (i : Nat) (hi : i < snaps.length) (pid : Int) :
    (pid ∈ (eventsAt o snaps i).map PEvent.pid ↔
        pid ∈ snaps.getD i [] ∧ (i = 0 ∨ pid ∉ snaps.getD (i - 1) []))
    ∧ ((eventsAt o snaps i).map PEvent.pid).Nodup
    ∧ (pid ∉ snaps.getD i [] →
        pid ∉ (seenAfter o ⟨∅⟩ (snaps.take (i + 1))).seen_pids) := by
  refine ⟨?_, ?_, ?_⟩
  · unfold eventsAt
    rw [(scan_events_ok o hok (seenAfter o ⟨∅⟩ (snaps.take i))
      (snaps.getD i [])).1 pid]
    cases i with
    | zero => simp [seenAfter]
    | succ j =>
        rw [seenAfter_take o hok snaps j (by omega)]
        simp [List.mem_toFinset]
  · exact (scan_events_ok o hok _ _).2
  · intro hnot
    rw [seenAfter_take o hok snaps i hi]
    simpa using hnot

theorem scan_processes_report_per_interval_witness :
    (∀ pid, (process_new_pid oracleAllOk pid).isSome = true)
    ∧ 2 < [[1, 2], [2], [1, 2]].length
    ∧ (((1 : Int) ∈ (eventsAt oracleAllOk [[1, 2], [2], [1, 2]] 2).map PEvent.pid ↔
          (1 : Int) ∈ [[1, 2], [2], [1, 2]].getD 2 []
            ∧ (2 = 0 ∨ (1 : Int) ∉ [[1, 2], [2], [1, 2]].getD (2 - 1) []))
        ∧ ((eventsAt oracleAllOk [[1, 2], [2], [1, 2]] 2).map PEvent.pid).Nodup
        ∧ ((1 : Int) ∉ [[1, 2], [2], [1, 2]].getD 2 [] →
            (1 : Int) ∉
              (seenAfter oracleAllOk ⟨∅⟩ ([[1, 2], [2], [1, 2]].take (2 + 1))).seen_pids)) :=
  ⟨oracleAllOk_isSome, by decide,
    scan_processes_report_per_interval oracleAllOk oracleAllOk_isSome
      [[1, 2], [2], [1, 2]] 2 (by decide) 1⟩

/-- **C6.** For a PID newly discovered in a scan: if metadata
resolution fails entirely (`process_new_pid` returns `Err`), the PID is
not in the seen set after the scan and no event is emitted for it (so
it is eligible for rediscovery on the next scan); if only the
command-line is unreadable, the PID is reported with the fixed
`UNKNOWN_COMMAND` placeholder; and `scan_processes` returns exactly the
number of events emitted in that scan. -/
theorem scan_processes_new_pid_failure (o : MetaOracle) (s : ProcessScanner)
    (snap : List Int) (pid : Int)
    (hin : pid ∈ snap) (hnew : pid ∉ s.seen_pids) :
    (process_new_pid o pid = none →
        pid ∉ (scan_processes o s (.ok snap)).1.seen_pids
        ∧ ∀ ev ∈ (scan_processes o s (.ok snap)).2.2, ev.pid ≠ pid)
    ∧ (∀ u, o.newOk pid = true → o.ruid pid = some u → o.cmdline pid = none →
        (⟨some u, pid, UNKNOWN_COMMAND⟩ : PEvent) ∈ (scan_processes o s (.ok snap)).2.2)
    ∧ (scan_processes o s (.ok snap)).2.1 =
        .ok ((scan_processes o s (.ok snap)).2.2).length := by
  refine ⟨?_, ?_, ?_⟩
  · intro hfail
    constructor
    · unfold scan_processes
      intro hmem
      rw [Finset.mem_inter, reportNewPids_seen_mem] at hmem
      exact hmem.1.2 ⟨(collectPids_news_mem snap ∅ s.seen_pids [] pid).mpr
        (Or.inr ⟨hin, hnew⟩), hfail⟩
    · intro ev hev
      unfold scan_processes at hev
      rw [reportNewPids_events, List.nil_append, List.mem_filterMap] at hev
      rcases hev with ⟨q, _, hq⟩
      rw [process_new_pid_pid o q ev hq]
      intro hqp
      rw [hqp, hfail] at hq
      exact Option.noConfusion hq
  · intro u hok hu hcmd
    have hsome : process_new_pid o pid =
        some ⟨some u, pid, UNKNOWN_COMMAND⟩ := by
      unfold process_new_pid
      rw [if_pos hok, hcmd, hu]
      rfl
    unfold scan_processes
    rw [reportNewPids_events, List.nil_append, List.mem_filterMap]
    exact ⟨pid, (collectPids_news_mem snap ∅ s.seen_pids [] pid).mpr
      (Or.inr ⟨hin, hnew⟩), hsome⟩
  · simp only [scan_processes]
    rw [reportNewPids_events, reportNewPids_count, List.nil_append,
      Nat.zero_add]

/-- Oracle on which `Process::new` fails for PID 3 and the command line
is unreadable for everyone. -/
def oracleFail3 : MetaOracle :=
  ⟨fun p => decide (p ≠ 3), fun _ => none, fun _ => some 5⟩

theorem scan_processes_new_pid_failure_witness :
    (3 : Int) ∈ [3, 4] ∧ (3 : Int) ∉ (⟨∅⟩ : ProcessScanner).seen_pids
    ∧ ((process_new_pid oracleFail3 3 = none →
          (3 : Int) ∉ (scan_processes oracleFail3 ⟨∅⟩ (.ok [3, 4])).1.seen_pids
          ∧ ∀ ev ∈ (scan_processes oracleFail3 ⟨∅⟩ (.ok [3, 4])).2.2, ev.pid ≠ 3)
        ∧ (∀ u, oracleFail3.newOk 3 = true → oracleFail3.ruid 3 = some u →
            oracleFail3.cmdline 3 = none →
            (⟨some u, 3, UNKNOWN_COMMAND⟩ : PEvent) ∈
              (scan_processes oracleFail3 ⟨∅⟩ (.ok [3, 4])).2.2)
        ∧ (scan_processes oracleFail3 ⟨∅⟩ (.ok [3, 4])).2.1 =
            .ok ((scan_processes oracleFail3 ⟨∅⟩ (.ok [3, 4])).2.2).length) :=
  ⟨by decide, by decide,
    scan_processes_new_pid_failure oracleFail3 ⟨∅⟩ [3, 4] 3 (by decide) (by decide)⟩

/-- **C9.** If enumeration of the process table itself fails,
`scan_processes` returns the error, leaves `seen_pids` exactly as it
was, and emits no event. -/
theorem scan_processes_enum_failure (o : MetaOracle) (s : ProcessScanner) :
    scan_processes o s (.error ()) = (s, .error (), []) := rfl

/-! ## DBusScanner (src/monitoring/dbus.rs)

`start_listening` holds one connection and loops: it calls
`GetProcesses` on the systemd `-.slice` proxy, and for each returned
`(name, pid, cmdline)` entry whose pid is newly inserted into
`printed_processes`, best-effort resolves the uid and emits one
observation. The loop ends when the remote call fails.
-/

/-- The `printed_processes` set held for the lifetime of one
connection. -/
structure DBusScanner where
  printed_processes : Finset Nat
deriving DecidableEq

/-- An observation emitted by `Logger::dbus_event_with_uid`. -/
structure BusEvent where
  pid : Nat
  cmdline : String
  uid : Option Nat
deriving DecidableEq, Repr

/-- The body of one poll: iterate over the `GetProcesses` result in
order; a pid that newly enters `printed_processes` is announced once
(with a best-effort `lookup_uid`), all others are skipped. -/
def pollProcesses (uidLookup : Nat → Option Nat)
    (procs : List (String × Nat × String)) (s : DBusScanner) :
    DBusScanner × List BusEvent :=
  match procs with
  | [] => (s, [])
  | (_, pid, cmdline) :: rest =>
      if pid ∈ s.printed_processes then
        pollProcesses uidLookup rest s
      else
        let r := pollProcesses uidLookup rest ⟨insert pid s.printed_processes⟩
        (r.1, ⟨pid, cmdline, uidLookup pid⟩ :: r.2)

/-- The monitoring loop of `start_listening` over the successful polls
of one connection (the loop exits on the first failed call, emitting
nothing further). Returns the final state and all emitted
observations, in order. -/
def runPolls (uidLookup : Nat → Option Nat)
    (polls : List (List (String × Nat × String))) (s : DBusScanner) :
    DBusScanner × List BusEvent :=
  match polls with
  | [] => (s, [])
  | poll :: rest =>
      let r1 := pollProcesses uidLookup poll s
      let r2 := runPolls uidLookup rest r1.1
      (r2.1, r1.2 ++ r2.2)

/-- The pids occurring in a list of poll results. -/
def pollPids (polls : List (List (String × Nat × String))) : List Nat :=
  (polls.flatten).map (fun e => e.2.1)

theorem pollProcesses_printed (uidLookup : Nat → Option Nat)
    (procs : List (String × Nat × String)) (s : DBusScanner) (q : Nat) :
    q ∈ (pollProcesses uidLookup procs s).1.printed_processes ↔
      q ∈ s.printed_processes ∨ q ∈ procs.map (fun e => e.2.1) := by
  induction procs generalizing s with
  | nil => simp [pollProcesses]
  | cons e rest ih =>
      obtain ⟨n, pid, cmd⟩ := e
      by_cases h : pid ∈ s.printed_processes
      · rw [pollProcesses, if_pos h, ih]
        by_cases hq : q = pid
        · subst hq; simp [h]
        · simp [hq]
      · rw [pollProcesses, if_neg h]
        show q ∈ (pollProcesses uidLookup rest ⟨insert pid s.printed_processes⟩).1.printed_processes ↔ _
        rw [ih]
        by_cases hq : q = pid
        · subst hq; simp
        · simp [hq]

theorem pollProcesses_events_mem (uidLookup : Nat → Option Nat)
    (procs : List (String × Nat × String)) (s : DBusScanner) (q : Nat) :
    q ∈ (pollProcesses uidLookup procs s).2.map BusEvent.pid ↔
      q ∉ s.printed_processes ∧ q ∈ procs.map (fun e => e.2.1) := by
  induction procs generalizing s with
  | nil => simp [pollProcesses]
  | cons e rest ih =>
      obtain ⟨n, pid, cmd⟩ := e
      by_cases h : pid ∈ s.printed_processes
      · rw [pollProcesses, if_pos h, ih]
        by_cases hq : q = pid
        · subst hq; simp [h]
        · simp [hq]
      · rw [pollProcesses, if_neg h]
        show q ∈ (BusEvent.pid ⟨pid, cmd, uidLookup pid⟩ ::
            (pollProcesses uidLookup rest ⟨insert pid s.printed_processes⟩).2.map BusEvent.pid) ↔ _
        rw [List.mem_cons, ih]
        by_cases hq : q = pid
        · subst hq; simp [h]
        · simp [hq]

theorem pollProcesses_events_nodup (uidLookup : Nat → Option Nat)
    (procs : List (String × Nat × String)) (s : DBusScanner) :
    ((pollProcesses uidLookup procs s).2.map BusEvent.pid).Nodup := by
  induction procs generalizing s with
  | nil => simp [pollProcesses]
  | cons e rest ih =>
      obtain ⟨n, pid, cmd⟩ := e
      by_cases h : pid ∈ s.printed_processes
      · rw [pollProcesses, if_pos h]; exact ih s
      · rw [pollProcesses, if_neg h]
        show (BusEvent.pid ⟨pid, cmd, uidLookup pid⟩ ::
            (pollProcesses uidLookup rest ⟨insert pid s.printed_processes⟩).2.map BusEvent.pid).Nodup
        rw [List.nodup_cons]
        refine ⟨fun hmem => ?_, ih _⟩
        rw [pollProcesses_events_mem] at hmem
        exact hmem.1 (Finset.mem_insert_self _ _)

theorem runPolls_printed (uidLookup : Nat → Option Nat)
    (polls : List (List (String × Nat × String))) (s : DBusScanner) (q : Nat) :
    q ∈ (runPolls uidLookup polls s).1.printed_processes ↔
      q ∈ s.printed_processes ∨ q ∈ pollPids polls := by
  induction polls generalizing s with
  | nil => simp [runPolls, pollPids]
  | cons poll rest ih =>
      rw [runPolls]
      show q ∈ (runPolls uidLookup rest (pollProcesses uidLookup poll s).1).1.printed_processes ↔ _
      rw [ih, pollProcesses_printed]
      simp [pollPids, or_assoc]

theorem runPolls_events_mem (uidLookup : Nat → Option Nat)
    (polls : List (List (String × Nat × String))) (s : DBusScanner) (q : Nat) :
    q ∈ (runPolls uidLookup polls s).2.map BusEvent.pid ↔
      q ∉ s.printed_processes ∧ q ∈ pollPids polls := by
  induction polls generalizing s with
  | nil => simp [runPolls, pollPids]
  | cons poll rest ih =>
      rw [runPolls]
      show q ∈ ((pollProcesses uidLookup poll s).2 ++
          (runPolls uidLookup rest (pollProcesses uidLookup poll s).1).2).map BusEvent.pid ↔ _
      rw [List.map_append, List.mem_append, ih, pollProcesses_events_mem,
        pollProcesses_printed]
      simp only [pollPids, List.flatten_cons, List.map_append, List.mem_append]
      constructor
      · rintro (⟨hn, hm⟩ | ⟨hn, hm⟩)
        · exact ⟨hn, Or.inl hm⟩
        · exact ⟨fun hs => hn (Or.inl hs), Or.inr hm⟩
      · rintro ⟨hn, hm | hm⟩
        · exact Or.inl ⟨hn, hm⟩
        · by_cases hp : q ∈ poll.map (fun e => e.2.1)
          · exact Or.inl ⟨hn, hp⟩
          · exact Or.inr ⟨fun hs => (hs.elim hn hp), hm⟩

theorem runPolls_events_nodup (uidLookup : Nat → Option Nat)
    (polls : List (List (String × Nat × String))) (s : DBusScanner) :
    ((runPolls uidLookup polls s).2.map BusEvent.pid).Nodup := by
  induction polls generalizing s with
  | nil => simp [runPolls]
  | cons poll rest ih =>
      rw [runPolls]
      show ((pollProcesses uidLookup poll s).2 ++
          (runPolls uidLookup rest (pollProcesses uidLookup poll s).1).2).map BusEvent.pid |>.Nodup
      rw [List.map_append, List.nodup_append]
      refine ⟨pollProcesses_events_nodup _ _ _, ih _, ?_⟩
      intro q hq hq2
      rw [pollProcesses_events_mem] at hq
      rw [runPolls_events_mem] at hq2
      exact hq2.1 ((pollProcesses_printed uidLookup poll s q).mpr (Or.inr hq.2))

/-- **C7.** Within one connection (which starts with an empty
`printed_processes` set), `BusScanner` emits at most one observation
per PID over any sequence of poll results: the emitted pids are
duplicate-free, a pid is announced exactly when it occurs in some
poll, and the reported set only grows (it contains every previously
reported pid and is never evicted from). -/
theorem busScanner_reports_once (uidLookup : Nat → Option Nat)
    (polls : List (List (String × Nat × String))) (q : Nat) :
    ((runPolls uidLookup polls ⟨∅⟩).2.map BusEvent.pid).Nodup
    ∧ (q ∈ (runPolls uidLookup polls ⟨∅⟩).2.map BusEvent.pid ↔ q ∈ pollPids polls)
    ∧ (∀ s : DBusScanner, s.printed_processes ⊆
        (runPolls uidLookup polls s).1.printed_processes) := by
  refine ⟨runPolls_events_nodup _ _ _, ?_, ?_⟩
  · rw [runPolls_events_mem]
    simp
  · intro s p hp
    rw [runPolls_printed]
    exact Or.inl hp

/-! ## FsWatcher event decoding (src/monitoring/filesystem.rs)

The watch loop reads up to `BUFFER_SIZE` bytes and walks the buffer
with `offset`, interpreting the bytes at `offset` as an `InotifyEvent`
header `{wd, mask, cookie, len}` (4 little-endian u32 fields, 16
bytes) while `offset < read_size`, advancing by
`size_of::<InotifyEvent>() + len`. After the batch, one trigger is
sent iff at least one record was decoded.
-/

/-- `size_of::<InotifyEvent>()`: four u32 fields, 16 bytes. -/
def headerSize : Nat := 16

/-- Byte read from the buffer (out-of-range reads yield junk; 0 here). -/
def byteAt (buf : List Nat) (i : Nat) : Nat := buf.getD i 0

/-- A little-endian u32 read at `off`, as done by the raw-pointer cast
to `InotifyEvent` on this little-endian target. -/
def le32 (buf : List Nat) (off : Nat) : Nat :=
  byteAt buf off + 256 * byteAt buf (off + 1) + 65536 * byteAt buf (off + 2)
    + 16777216 * byteAt buf (off + 3)

/-- The header fields the loop actually reads from one record. -/
structure RawEvent where
  wd : Nat
  mask : Nat
  cookie : Nat
  len : Nat
deriving DecidableEq, Repr

/-- The decode loop of `start_watching`: while `offset < read_size`,
interpret the bytes at `offset` as an event header and advance by
`headerSize + len`. -/
def decodeFrom (buf : List Nat) (readSize offset : Nat) : List RawEvent :=
  if offset < readSize then
    ⟨le32 buf offset, le32 buf (offset + 4), le32 buf (offset + 8),
        le32 buf (offset + 12)⟩ ::
      decodeFrom buf readSize (offset + (headerSize + le32 buf (offset + 12)))
  else []
termination_by readSize - offset
decreasing_by simp only [headerSize]; omega

/-- Triggers sent for one read: `has_events` is set iff the loop body
ran at least once, and then exactly one trigger is sent. -/
def triggersSentOnRead (buf : List Nat) (readSize : Nat) : Nat :=
  if decodeFrom buf readSize 0 = [] then 0 else 1

/-- A well-formed kernel record as delivered by inotify: header fields
plus the (possibly empty) name bytes, with `len = name.length`. -/
structure RawRecord where
  wd : Nat
  mask : Nat
  cookie : Nat
  name : List Nat

/-- Field bounds of an actual kernel record (u32 fields). -/
def wfRecord (r : RawRecord) : Prop :=
  r.wd < 2 ^ 32 ∧ r.mask < 2 ^ 32 ∧ r.cookie < 2 ^ 32 ∧ r.name.length < 2 ^ 32

instance : DecidablePred wfRecord := fun r => by
  unfold wfRecord; infer_instance

/-- Little-endian encoding of a u32 value. -/
def encodeNat32 (n : Nat) : List Nat :=
  [n % 256, n / 256 % 256, n / 65536 % 256, n / 16777216 % 256]

/-- The wire form of one record: 16-byte header then the name bytes. -/
def encodeRecord (r : RawRecord) : List Nat :=
  encodeNat32 r.wd ++ encodeNat32 r.mask ++ encodeNat32 r.cookie ++
    encodeNat32 r.name.length ++ r.name

/-- A buffer of concatenated well-formed records. -/
def encodeRecords (rs : List RawRecord) : List Nat :=
  (rs.map encodeRecord).flatten

/-- The header fields the decoder should recover from a record. -/
def toEvent (r : RawRecord) : RawEvent :=
  ⟨r.wd, r.mask, r.cookie, r.name.length⟩

theorem byteAt_append (pre buf : List Nat) (i : Nat) :
    byteAt (pre ++ buf) (pre.length + i) = byteAt buf i := by
  unfold byteAt
  rw [List.getD_append_right pre buf 0 (pre.length + i) (Nat.le_add_right _ _),
    Nat.add_sub_cancel_left]

theorem le32_append (pre buf : List Nat) (off : Nat) :
    le32 (pre ++ buf) (pre.length + off) = le32 buf off := by
  unfold le32
  rw [show pre.length + off + 1 = pre.length + (off + 1) from by omega,
    show pre.length + off + 2 = pre.length + (off + 2) from by omega,
    show pre.length + off + 3 = pre.length + (off + 3) from by omega,
    byteAt_append, byteAt_append, byteAt_append, byteAt_append]

theorem le32_encodeNat32 (n : Nat) (rest : List Nat) (h : n < 2 ^ 32) :
    le32 (encodeNat32 n ++ rest) 0 = n := by
  simp only [le32, byteAt, encodeNat32, List.cons_append, List.nil_append,
    List.getD_cons_zero, List.getD_cons_succ]
  omega

theorem encodeNat32_length (n : Nat) : (encodeNat32 n).length = 4 := rfl

theorem encodeRecord_length (r : RawRecord) :
    (encodeRecord r).length = headerSize + r.name.length := by
  simp [encodeRecord, encodeNat32, headerSize]
  omega

theorem decodeFrom_stop (buf : List Nat) (readSize offset : Nat)
    (h : ¬ offset < readSize) : decodeFrom buf readSize offset = [] := by
  rw [decodeFrom, if_neg h]

theorem decodeFrom_shift (pre buf : List Nat) (readSize : Nat) :
    ∀ off, decodeFrom (pre ++ buf) (pre.length + readSize) (pre.length + off) =
      decodeFrom buf readSize off := by
  have H : ∀ n off, readSize - off ≤ n →
      decodeFrom (pre ++ buf) (pre.length + readSize) (pre.length + off) =
        decodeFrom buf readSize off := by
    intro n
    induction n with
    | zero =>
        intro off h
        have h1 : ¬ off < readSize := by omega
        rw [decodeFrom_stop _ _ _ h1, decodeFrom_stop]
        omega
    | succ n ih =>
        intro off h
        by_cases hlt : off < readSize
        · conv_lhs => rw [decodeFrom]
          conv_rhs => rw [decodeFrom]
          rw [if_pos hlt,
            if_pos (show pre.length + off < pre.length + readSize from by omega)]
          have e0 := le32_append pre buf off
          have e4 : le32 (pre ++ buf) (pre.length + off + 4) = le32 buf (off + 4) := by
            rw [Nat.add_assoc]; exact le32_append pre buf (off + 4)
          have e8 : le32 (pre ++ buf) (pre.length + off + 8) = le32 buf (off + 8) := by
            rw [Nat.add_assoc]; exact le32_append pre buf (off + 8)
          have e12 : le32 (pre ++ buf) (pre.length + off + 12) = le32 buf (off + 12) := by
            rw [Nat.add_assoc]; exact le32_append pre buf (off + 12)
          rw [e0, e4, e8, e12, Nat.add_assoc]
          rw [ih (off + (headerSize + le32 buf (off + 12))) (by simp only [headerSize]; omega)]
        · rw [decodeFrom_stop _ _ _ hlt, decodeFrom_stop]
          omega
  intro off
  exact H (readSize - off) off le_rfl

theorem le32_skip4 (n : Nat) (rest : List Nat) :
    le32 (encodeNat32 n ++ rest) 4 = le32 rest 0 := rfl

theorem le32_skip8 (m n : Nat) (rest : List Nat) :
    le32 (encodeNat32 m ++ (encodeNat32 n ++ rest)) 8 = le32 rest 0 := rfl

theorem le32_skip12 (m n p : Nat) (rest : List Nat) :
    le32 (encodeNat32 m ++ (encodeNat32 n ++ (encodeNat32 p ++ rest))) 12 =
      le32 rest 0 := rfl

/-- Decoding a buffer of `K` concatenated well-formed records (followed
by arbitrary junk the read did not cover) recovers exactly the `K`
record headers. -/
theorem decode_encodeRecords (rs : List RawRecord) (junk : List Nat)
    (hb : ∀ r ∈ rs, wfRecord r) :
    decodeFrom (encodeRecords rs ++ junk) (encodeRecords rs).length 0 =
      rs.map toEvent := by
  induction rs with
  | nil =>
      rw [decodeFrom_stop]
      · rfl
      · simp [encodeRecords]
  | cons r rest ih =>
      obtain ⟨hwd, hmask, hcookie, hlen⟩ := hb r (List.mem_cons_self r rest)
      have hb' : ∀ q ∈ rest, wfRecord q := fun q hq => hb q (List.mem_cons_of_mem r hq)
      have hbuf : encodeRecords (r :: rest) ++ junk =
          encodeNat32 r.wd ++ (encodeNat32 r.mask ++ (encodeNat32 r.cookie ++
            (encodeNat32 r.name.length ++ (r.name ++ (encodeRecords rest ++ junk))))) := by
        simp [encodeRecords, encodeRecord, List.append_assoc]
      have hsize : (encodeRecords (r :: rest)).length =
          (encodeRecord r).length + (encodeRecords rest).length := by
        simp [encodeRecords]
      rw [hbuf, hsize, decodeFrom]
      have hpos : 0 < (encodeRecord r).length + (encodeRecords rest).length := by
        rw [encodeRecord_length]; simp only [headerSize]; omega
      rw [if_pos hpos]
      rw [le32_skip12, le32_encodeNat32 _ _ hlen]
      have hw : le32 (encodeNat32 r.wd ++ (encodeNat32 r.mask ++ (encodeNat32 r.cookie ++
          (encodeNat32 r.name.length ++ (r.name ++ (encodeRecords rest ++ junk)))))) 0 =
          r.wd := le32_encodeNat32 _ _ hwd
      have hm : le32 (encodeNat32 r.wd ++ (encodeNat32 r.mask ++ (encodeNat32 r.cookie ++
          (encodeNat32 r.name.length ++ (r.name ++ (encodeRecords rest ++ junk)))))) 4 =
          r.mask := by
        rw [le32_skip4]; exact le32_encodeNat32 _ _ hmask
      have hc : le32 (encodeNat32 r.wd ++ (encodeNat32 r.mask ++ (encodeNat32 r.cookie ++
          (encodeNat32 r.name.length ++ (r.name ++ (encodeRecords rest ++ junk)))))) 8 =
          r.cookie := by
        rw [le32_skip8]; exact le32_encodeNat32 _ _ hcookie
      rw [hw, hm, hc]
      have hoff : 0 + (headerSize + r.name.length) =
          (encodeNat32 r.wd ++ (encodeNat32 r.mask ++ (encodeNat32 r.cookie ++
            encodeNat32 r.name.length))).length + r.name.length := by
        simp [encodeNat32, headerSize]
      have hregroup : encodeNat32 r.wd ++ (encodeNat32 r.mask ++ (encodeNat32 r.cookie ++
          (encodeNat32 r.name.length ++ (r.name ++ (encodeRecords rest ++ junk))))) =
          (encodeNat32 r.wd ++ (encodeNat32 r.mask ++ (encodeNat32 r.cookie ++
            encodeNat32 r.name.length)) ++ r.name) ++ (encodeRecords rest ++ junk) := by
        simp [List.append_assoc]
      have hlen2 : (encodeRecord r).length =
          (encodeNat32 r.wd ++ (encodeNat32 r.mask ++ (encodeNat32 r.cookie ++
            encodeNat32 r.name.length)) ++ r.name).length := by
        simp [encodeRecord, encodeNat32]
      have hoff2 : 0 + (headerSize + r.name.length) =
          (encodeNat32 r.wd ++ (encodeNat32 r.mask ++ (encodeNat32 r.cookie ++
            encodeNat32 r.name.length)) ++ r.name).length + 0 := by
        simp [encodeNat32, headerSize]
        omega
      rw [hoff2, hregroup, hlen2, decodeFrom_shift, ih hb']
      rfl

/-- **C3.** For one read batch: decoding a buffer containing `K ≥ 1`
concatenated well-formed event records yields exactly `K` decoded
records and sends exactly one trigger for the whole batch (never one
per record); a read returning zero bytes yields zero decoded records
and sends zero triggers. -/
theorem decode_batch_one_trigger (rs : List RawRecord)
    (hb : ∀ r ∈ rs, wfRecord r) :
    (rs ≠ [] →
      (decodeFrom (encodeRecords rs) (encodeRecords rs).length 0).length = rs.length
      ∧ triggersSentOnRead (encodeRecords rs) (encodeRecords rs).length = 1)
    ∧ ∀ buf : List Nat, decodeFrom buf 0 0 = [] ∧ triggersSentOnRead buf 0 = 0 := by
  have hdec := decode_encodeRecords rs [] hb
  rw [List.append_nil] at hdec
  constructor
  · intro hne
    constructor
    · rw [hdec, List.length_map]
    · unfold triggersSentOnRead
      rw [hdec, if_neg]
      simpa using hne
  · intro buf
    refine ⟨decodeFrom_stop _ _ _ (by omega), ?_⟩
    unfold triggersSentOnRead
    rw [if_pos (decodeFrom_stop _ _ _ (by omega))]

/-- Two concrete well-formed records: a CREATE on wd 1 with a 2-byte
name and an OPEN on wd 2 with no name. -/
def sampleRecords : List RawRecord :=
  [⟨1, 256, 0, [97, 98]⟩, ⟨2, 32, 0, []⟩]

theorem decode_batch_one_trigger_witness :
    (∀ r ∈ sampleRecords, wfRecord r)
    ∧ ((sampleRecords ≠ [] →
        (decodeFrom (encodeRecords sampleRecords)
          (encodeRecords sampleRecords).length 0).length = sampleRecords.length
        ∧ triggersSentOnRead (encodeRecords sampleRecords)
            (encodeRecords sampleRecords).length = 1)
      ∧ ∀ buf : List Nat, decodeFrom buf 0 0 = [] ∧ triggersSentOnRead buf 0 = 0) :=
  ⟨by decide, decode_batch_one_trigger sampleRecords (by decide)⟩

/-- **C5 (counterexample).** The claim says decoding stops as soon as
fewer bytes remain than one fixed header (16 bytes), never
interpreting bytes past the read size. On a read of 1 byte the loop
guard `offset < read_size` still holds at offset 0, and the code
interprets a record whose 16-byte header extends past the read size:
one record is consumed where the claim requires zero. -/
theorem decode_partial_header_counterexample :
    (decodeFrom (List.replicate 20 0) 1 0).length = 1 := by
  rw [decodeFrom]
  norm_num [le32, byteAt, headerSize]
  rw [decodeFrom_stop _ _ _ (by omega)]

/-- **C5 (amended).** The decode loop stops exactly when `offset`
reaches or passes `read_size`, not when fewer bytes remain than one
header. Under the code's stated assumption that each read delivers
only whole records, decoding consumes exactly those records, stopping
at the read size without interpreting the bytes beyond it (arbitrary
junk after the read data does not change the result). -/
theorem decode_stops_at_read_size (rs : List RawRecord)
    (hb : ∀ r ∈ rs, wfRecord r) :
    (∀ (buf : List Nat) (readSize offset : Nat), ¬ offset < readSize →
      decodeFrom buf readSize offset = [])
    ∧ ∀ junk : List Nat,
        decodeFrom (encodeRecords rs ++ junk) (encodeRecords rs).length 0 =
          rs.map toEvent :=
  ⟨fun buf readSize offset h => decodeFrom_stop buf readSize offset h,
   fun junk => decode_encodeRecords rs junk hb⟩

theorem decode_stops_at_read_size_witness :
    (∀ r ∈ sampleRecords, wfRecord r)
    ∧ ((∀ (buf : List Nat) (readSize offset : Nat), ¬ offset < readSize →
          decodeFrom buf readSize offset = [])
        ∧ ∀ junk : List Nat,
            decodeFrom (encodeRecords sampleRecords ++ junk)
                (encodeRecords sampleRecords).length 0 =
              sampleRecords.map toEvent) :=
  ⟨by decide, decode_stops_at_read_size sampleRecords (by decide)⟩

/-! ## Scan scheduler (src/monitoring/scanner.rs)

The active scheduling loop spawned by `Scanner::start`. Each iteration
samples `now` and `time_since_last_process` at the top (before any
blocking), computes the recv timeout from the periodic deadline, scans
immediately if the deadline has passed, and otherwise blocks on the
trigger channel with that timeout. Time is in milliseconds and scans
are idealized as instantaneous. The inactive branch (which only sleeps
and re-checks the flag) and channel disconnection are outside the
claims modelled here; `pending` holds the arrival times (ascending) of
triggers not yet taken off the channel.
-/

structure SchedConfig where
  interval : Option Nat
deriving DecidableEq, Repr

/-- `interval.unwrap_or(Duration::from_millis(DEFAULT_SCAN_INTERVAL_MS))`
(scanner.rs:71-72): the debounce floor between trigger-driven scans. -/
def min_between_scans (c : SchedConfig) : Nat :=
  c.interval.getD DEFAULT_SCAN_INTERVAL_MS

/-- `Duration::from_secs(SCANNER_MAX_TIMEOUT_SECS)` in milliseconds. -/
def SCANNER_MAX_TIMEOUT_MS : Nat := SCANNER_MAX_TIMEOUT_SECS * 1000

structure SchedState where
  now : Nat
  lastScan : Nat
  pending : List Nat
  scans : List Nat
deriving DecidableEq, Repr

/-- `next_process_scan = interval.map(|d| last_process_scan + d)`. -/
def next_process_scan (c : SchedConfig) (s : SchedState) : Option Nat :=
  c.interval.map (fun i => s.lastScan + i)

/-- The `recv_timeout` argument computed at the top of the loop. -/
def recvTimeout (c : SchedConfig) (s : SchedState) : Nat :=
  match next_process_scan c s with
  | some t => if t ≤ s.now then 0 else min (t - s.now) SCANNER_MAX_TIMEOUT_MS
  | none => SCANNER_MAX_TIMEOUT_MS

/-- The guard of the interval-scan branch: the periodic deadline has
already passed when the loop top samples `now`. -/
def deadlinePassed (c : SchedConfig) (s : SchedState) : Bool :=
  match next_process_scan c s with
  | some t => decide (t ≤ s.now)
  | none => false

/-- The `trigger_rx.recv_timeout(timeout)` arm. `elapsed` is
`time_since_last_process`, sampled at the top of the loop *before*
blocking. A trigger with arrival time `h` is received at
`max h s.now`; on receipt, if `elapsed ≥ min_between_scans` all
pending triggers are drained and one scan runs, otherwise the trigger
is ignored (it has been consumed from the channel; nothing is queued
back). On timeout the loop just advances to the next top. -/
def stepRecv (c : SchedConfig) (elapsed : Nat) (s : SchedState) : SchedState :=
  match s.pending with
  | [] => { s with now := s.now + recvTimeout c s }
  | h :: rest =>
      if h ≤ s.now + recvTimeout c s then
        if min_between_scans c ≤ elapsed then
          { now := max h s.now, lastScan := max h s.now,
            pending := rest.filter (fun a => decide (max h s.now < a)),
            scans := s.scans ++ [max h s.now] }
        else
          { s with now := max h s.now, pending := rest }
      else
        { s with now := s.now + recvTimeout c s }

/-- One iteration of the active scheduling loop of `Scanner::start`. -/
def schedStep (c : SchedConfig) (s : SchedState) : SchedState :=
  if deadlinePassed c s then
    { s with scans := s.scans ++ [s.now], lastScan := s.now }
  else
    stepRecv c (s.now - s.lastScan) s

/-- `n` iterations of the active scheduling loop. -/
def schedRun (c : SchedConfig) (s : SchedState) : Nat → SchedState
  | 0 => s
  | n + 1 => schedRun c (schedStep c s) n

/-- **C4.** Whenever the periodic-scan deadline has already passed at
the top of the loop, the scheduler scans immediately at that instant —
before blocking on the trigger channel, consuming no trigger — so with
periodic scanning enabled, continuous trigger arrival cannot starve
periodic scans. -/
theorem periodic_deadline_preempts (c : SchedConfig) (s : SchedState)
    (i : Nat) (hc : c.interval = some i) (hd : s.lastScan + i ≤ s.now) :
    schedStep c s = { s with scans := s.scans ++ [s.now], lastScan := s.now } := by
  unfold schedStep deadlinePassed next_process_scan
  rw [hc]
  simp [hd]

theorem periodic_deadline_preempts_witness :
    (⟨some 100⟩ : SchedConfig).interval = some 100
    ∧ (⟨150, 0, [120], []⟩ : SchedState).lastScan + 100 ≤
        (⟨150, 0, [120], []⟩ : SchedState).now
    ∧ schedStep ⟨some 100⟩ ⟨150, 0, [120], []⟩ =
        { (⟨150, 0, [120], []⟩ : SchedState) with
            scans := (⟨150, 0, [120], []⟩ : SchedState).scans ++ [150],
            lastScan := 150 } :=
  ⟨rfl, by decide,
    periodic_deadline_preempts ⟨some 100⟩ ⟨150, 0, [120], []⟩ 100 rfl (by decide)⟩

/-- **C10.** The debounce floor is derived, not independently
configured: it equals the configured periodic interval when one is
set, and the fixed `DEFAULT_SCAN_INTERVAL_MS = 100` otherwise; in
particular with periodic scanning disabled a trigger received while
the sampled elapsed time is under 100 ms is still dropped. -/
theorem debounce_floor_from_interval (s : SchedState) (h : Nat)
    (rest : List Nat) (hp : s.pending = h :: rest)
    (hr : h ≤ s.now + recvTimeout ⟨none⟩ s)
    (he : s.now - s.lastScan < DEFAULT_SCAN_INTERVAL_MS) :
    (∀ i, min_between_scans ⟨some i⟩ = i)
    ∧ min_between_scans ⟨none⟩ = 100
    ∧ schedStep ⟨none⟩ s = { s with now := max h s.now, pending := rest } := by
  refine ⟨fun i => rfl, rfl, ?_⟩
  unfold schedStep
  have hnd : deadlinePassed ⟨none⟩ s = false := rfl
  rw [hnd]
  simp only [Bool.false_eq_true, if_false]
  unfold stepRecv
  rw [hp]
  simp only [if_pos hr]
  rw [if_neg]
  intro hle
  exact absurd he (by simpa [min_between_scans, DEFAULT_SCAN_INTERVAL_MS] using Nat.not_lt.mpr hle)

theorem debounce_floor_from_interval_witness :
    (⟨50, 0, [60], []⟩ : SchedState).pending = [60]
    ∧ 60 ≤ (⟨50, 0, [60], []⟩ : SchedState).now + recvTimeout ⟨none⟩ ⟨50, 0, [60], []⟩
    ∧ (⟨50, 0, [60], []⟩ : SchedState).now -
        (⟨50, 0, [60], []⟩ : SchedState).lastScan < DEFAULT_SCAN_INTERVAL_MS
    ∧ ((∀ i, min_between_scans ⟨some i⟩ = i)
        ∧ min_between_scans ⟨none⟩ = 100
        ∧ schedStep ⟨none⟩ ⟨50, 0, [60], []⟩ =
            { (⟨50, 0, [60], []⟩ : SchedState) with now := max 60 50, pending := [] }) :=
  ⟨rfl, by decide, by decide,
    debounce_floor_from_interval ⟨50, 0, [60], []⟩ 60 [] rfl (by decide) (by decide)⟩

/-- **C1 (counterexample).** Two runs with periodic scanning disabled
(debounce floor = the 100 ms default), starting right after a scan at
t = 0. Run 1: a single trigger arrives at t = 150 — more than the
floor after the scan preceding it — so the claim requires one scan;
the code receives it in an iteration whose top-of-loop elapsed sample
is 0 < 100 and drops it: the trigger is consumed (`pending = []`) and
no scan ever executes. Run 2: two triggers arrive at t = 10 and
t = 20, within one floor window of the last scan; the claim says
exactly one scan executes for them, but both are dropped and no scan
executes. -/
theorem scheduler_debounce_counterexample :
    (schedRun ⟨none⟩ ⟨0, 0, [150], []⟩ 3).scans = []
    ∧ (schedRun ⟨none⟩ ⟨0, 0, [150], []⟩ 3).pending = []
    ∧ (schedRun ⟨none⟩ ⟨0, 0, [10, 20], []⟩ 3).scans = []
    ∧ (schedRun ⟨none⟩ ⟨0, 0, [10, 20], []⟩ 3).pending = [] := by
  decide

/-- **C1 (amended).** Per iteration of the active loop in which a
trigger is received (no periodic deadline pending): if the elapsed
time sampled at the top of the iteration — before blocking, hence
possibly stale — is below the floor, the trigger is discarded
outright: consumed from the channel, no scan, no queued retry, last
scan time unchanged. If that sampled elapsed is at or above the floor,
exactly one scan executes and it drains every trigger pending at the
scan instant, so a burst of N triggers yields one scan. Because the
elapsed time is sampled before the wait rather than at receipt, a
trigger arriving more than the floor after the last scan can still be
dropped; hence neither "N triggers within one window ⇒ exactly one
scan" nor "N triggers spaced more than the floor apart ⇒ N scans"
holds of the code. -/
theorem scheduler_trigger_debounce (c : SchedConfig) (s : SchedState)
    (h : Nat) (rest : List Nat) (hp : s.pending = h :: rest)
    (hnd : deadlinePassed c s = false)
    (hr : h ≤ s.now + recvTimeout c s) :
    (s.now - s.lastScan < min_between_scans c →
      schedStep c s = { s with now := max h s.now, pending := rest })
    ∧ (min_between_scans c ≤ s.now - s.lastScan →
      schedStep c s =
        { now := max h s.now, lastScan := max h s.now,
          pending := rest.filter (fun a => decide (max h s.now < a)),
          scans := s.scans ++ [max h s.now] }) := by
  constructor
  · intro he
    unfold schedStep
    rw [hnd]
    simp only [Bool.false_eq_true, if_false]
    unfold stepRecv
    rw [hp]
    simp only [if_pos hr]
    rw [if_neg (Nat.not_le.mpr he)]
  · intro he
    unfold schedStep
    rw [hnd]
    simp only [Bool.false_eq_true, if_false]
    unfold stepRecv
    rw [hp]
    simp only [if_pos hr]
    rw [if_pos he]

theorem scheduler_trigger_debounce_witness :
    (⟨50, 0, [70, 80], []⟩ : SchedState).pending = [70, 80]
    ∧ deadlinePassed ⟨some 100⟩ ⟨50, 0, [70, 80], []⟩ = false
    ∧ 70 ≤ (⟨50, 0, [70, 80], []⟩ : SchedState).now +
        recvTimeout ⟨some 100⟩ ⟨50, 0, [70, 80], []⟩
    ∧ (((⟨50, 0, [70, 80], []⟩ : SchedState).now -
          (⟨50, 0, [70, 80], []⟩ : SchedState).lastScan < min_between_scans ⟨some 100⟩ →
        schedStep ⟨some 100⟩ ⟨50, 0, [70, 80], []⟩ =
          { (⟨50, 0, [70, 80], []⟩ : SchedState) with now := max 70 50, pending := [80] })
      ∧ (min_between_scans ⟨some 100⟩ ≤ (⟨50, 0, [70, 80], []⟩ : SchedState).now -
            (⟨50, 0, [70, 80], []⟩ : SchedState).lastScan →
        schedStep ⟨some 100⟩ ⟨50, 0, [70, 80], []⟩ =
          { now := max 70 50, lastScan := max 70 50,
            pending := [80].filter (fun a => decide (max 70 50 < a)),
            scans := [] ++ [max 70 50] })) :=
  ⟨rfl, by decide, by decide,
    scheduler_trigger_debounce ⟨some 100⟩ ⟨50, 0, [70, 80], []⟩ 70 [80] rfl
      (by decide) (by decide)⟩

/-! ## FsWatcher watch registration (src/monitoring/filesystem.rs)

`setup_watches` iterates the configured recursive roots (each expanded
by a `WalkDir` pre-order traversal) and then the direct roots, calling
`add_watch_single` on each path. `add_watch_single` skips (with a log
line) paths that are not valid UTF-8, propagates a `CString`
construction failure (interior NUL byte) as an error, and otherwise
calls `inotify_add_watch`; a kernel registration failure is logged —
permission-denied only in debug mode — and skipped with `Ok`.
-/

def IN_OPEN : Nat := 0x20

def IN_ALL_EVENTS : Nat := 0xfff

inductive WatchErrKind
  | permissionDenied
  | otherError
deriving DecidableEq, Repr

/-- A directory path as handed to `add_watch_single`: `none` when
`to_str()` fails (not valid UTF-8), else the UTF-8 bytes of the
string. -/
structure WPath where
  utf8 : Option (List Nat)
deriving DecidableEq, Repr

/-- `CString::new` fails exactly on an interior NUL byte. -/
def hasNul (s : List Nat) : Bool := s.contains 0

inductive WatchLog
  | invalidUtf8 (p : WPath)
  | watching (path : List Nat) (wd : Nat)
  | failedToMonitor (path : List Nat) (e : WatchErrKind)
deriving DecidableEq, Repr

/-- Environment oracles: the per-path result of `inotify_add_watch`
(given the requested mask) and the `WalkDir` expansion of a recursive
root (directories only, pre-order, symlinks followed). -/
structure WatchEnv where
  addWatch : List Nat → Nat → Except WatchErrKind Nat
  walk : WPath → List WPath

/-- The observable outcome of watch setup: the `wd_to_path` insertions,
the log lines, and the paths handed to `add_watch_single`, in order. -/
structure WatchOutcome where
  wdMap : List (Nat × List Nat)
  logs : List WatchLog
  attempted : List WPath
deriving DecidableEq, Repr

/-- The mask requested: `IN_OPEN` in low-resource mode, else
`IN_ALL_EVENTS`. -/
def watchMask (lowResource : Bool) : Nat :=
  if lowResource then IN_OPEN else IN_ALL_EVENTS

/-- `FsWatcher::add_watch_single`. -/
def add_watch_single (env : WatchEnv) (debug lowResource : Bool)
    (p : WPath) (acc : WatchOutcome) : Except Unit WatchOutcome :=
  let acc1 : WatchOutcome := { acc with attempted := acc.attempted ++ [p] }
  match p.utf8 with
  | none => .ok { acc1 with logs := acc1.logs ++ [.invalidUtf8 p] }
  | some s =>
      if hasNul s then .error ()
      else
        match env.addWatch s (watchMask lowResource) with
        | .ok wd =>
            .ok { acc1 with
                  wdMap := acc1.wdMap ++ [(wd, s)],
                  logs := acc1.logs ++ (if debug then [.watching s wd] else []) }
        | .error e =>
            .ok { acc1 with
                  logs := acc1.logs ++
                    (if debug ∨ e ≠ WatchErrKind.permissionDenied then
                      [.failedToMonitor s e] else []) }

/-- The `?`-chained iteration of `add_watch_single` over a list of
paths (the body of `add_watch` for a recursive root's walk, an
erroring iteration aborting the rest). -/
def add_watch_list (env : WatchEnv) (debug lowResource : Bool)
    (ps : List WPath) (acc : WatchOutcome) : Except Unit WatchOutcome :=
  match ps with
  | [] => .ok acc
  | p :: rest =>
      match add_watch_single env debug lowResource p acc with
      | .ok acc1 => add_watch_list env debug lowResource rest acc1
      | .error e => .error e

/-- `FsWatcher::add_watch`: a recursive root is expanded by `WalkDir`,
a direct root is watched as-is. -/
def add_watch (env : WatchEnv) (debug lowResource : Bool) (p : WPath)
    (isRecursive : Bool) (acc : WatchOutcome) : Except Unit WatchOutcome :=
  if isRecursive then add_watch_list env debug lowResource (env.walk p) acc
  else add_watch_single env debug lowResource p acc

/-- The `?`-chained iteration of `add_watch` in `setup_watches`. -/
def setup_watches_go (env : WatchEnv) (debug lowResource : Bool)
    (dirs : List WPath) (isRecursive : Bool) (acc : WatchOutcome) :
    Except Unit WatchOutcome :=
  match dirs with
  | [] => .ok acc
  | d :: rest =>
      match add_watch env debug lowResource d isRecursive acc with
      | .ok acc1 => setup_watches_go env debug lowResource rest isRecursive acc1
      | .error e => .error e

/-- `FsWatcher::setup_watches`: all recursive roots, then all direct
roots. -/
def setup_watches (env : WatchEnv) (debug lowResource : Bool)
    (recursiveDirs directDirs : List WPath) : Except Unit WatchOutcome :=
  match setup_watches_go env debug lowResource recursiveDirs true ⟨[], [], []⟩ with
  | .ok acc => setup_watches_go env debug lowResource directDirs false acc
  | .error e => .error e

/-- The full list of paths watch setup should attempt. -/
def expandedPaths (env : WatchEnv) (recursiveDirs directDirs : List WPath) :
    List WPath :=
  (recursiveDirs.map env.walk).flatten ++ directDirs

/-- A path whose UTF-8 form contains no NUL byte. Command-line
arguments and on-disk file names on Linux can never contain NUL, so
every configured root and every `WalkDir` entry satisfies this. -/
def nulFree (p : WPath) : Prop := ∀ s, p.utf8 = some s → hasNul s = false

instance : DecidablePred nulFree := fun p =>
  match hu : p.utf8 with
  | none => isTrue (fun _ hs => by rw [hu] at hs; exact Option.noConfusion hs)
  | some s =>
      if h : hasNul s = false then
        isTrue (fun t ht => by
          rw [hu] at ht
          injection ht with h2
          rw [← h2]
          exact h)
      else
        isFalse (fun hall => h (hall s hu))

theorem add_watch_single_ok (env : WatchEnv) (debug lowResource : Bool)
    (p : WPath) (acc : WatchOutcome) (hp : nulFree p) :
    ∃ acc1, add_watch_single env debug lowResource p acc = .ok acc1
      ∧ acc1.attempted = acc.attempted ++ [p] := by
  cases hu : p.utf8 with
  | none =>
      refine ⟨⟨acc.wdMap, acc.logs ++ [.invalidUtf8 p], acc.attempted ++ [p]⟩, ?_, rfl⟩
      simp only [add_watch_single, hu]
  | some s =>
      have hns : hasNul s = false := hp s hu
      cases hw : env.addWatch s (watchMask lowResource) with
      | ok wd =>
          refine ⟨⟨acc.wdMap ++ [(wd, s)],
            acc.logs ++ (if debug then [.watching s wd] else []),
            acc.attempted ++ [p]⟩, ?_, rfl⟩
          simp only [add_watch_single, hu, hns, hw, Bool.false_eq_true, if_false]
      | error e =>
          refine ⟨⟨acc.wdMap,
            acc.logs ++ (if debug ∨ e ≠ WatchErrKind.permissionDenied then
              [.failedToMonitor s e] else []),
            acc.attempted ++ [p]⟩, ?_, rfl⟩
          simp only [add_watch_single, hu, hns, hw, Bool.false_eq_true, if_false]

theorem add_watch_list_ok (env : WatchEnv) (debug lowResource : Bool)
    (ps : List WPath) (acc : WatchOutcome) (hps : ∀ p ∈ ps, nulFree p) :
    ∃ acc1, add_watch_list env debug lowResource ps acc = .ok acc1
      ∧ acc1.attempted = acc.attempted ++ ps := by
  induction ps generalizing acc with
  | nil => exact ⟨acc, rfl, by simp⟩
  | cons p rest ih =>
      obtain ⟨acc1, h1, ha1⟩ := add_watch_single_ok env debug lowResource p acc
        (hps p (List.mem_cons_self p rest))
      obtain ⟨acc2, h2, ha2⟩ := ih acc1 (fun q hq => hps q (List.mem_cons_of_mem p hq))
      refine ⟨acc2, ?_, ?_⟩
      · rw [add_watch_list, h1]
        exact h2
      · rw [ha2, ha1, List.append_assoc]
        rfl

theorem setup_watches_go_ok (env : WatchEnv) (debug lowResource : Bool)
    (dirs : List WPath) (isRecursive : Bool) (acc : WatchOutcome)
    (hd : ∀ d ∈ dirs, ∀ p ∈ (if isRecursive then env.walk d else [d]), nulFree p) :
    ∃ acc1, setup_watches_go env debug lowResource dirs isRecursive acc = .ok acc1
      ∧ acc1.attempted = acc.attempted ++
          (dirs.map (fun d => if isRecursive then env.walk d else [d])).flatten := by
  induction dirs generalizing acc with
  | nil => exact ⟨acc, rfl, by simp⟩
  | cons d rest ih =>
      have hstep : ∃ acc1, add_watch env debug lowResource d isRecursive acc = .ok acc1
          ∧ acc1.attempted = acc.attempted ++ (if isRecursive then env.walk d else [d]) := by
        unfold add_watch
        cases isRecursive with
        | true =>
            simpa using add_watch_list_ok env debug lowResource (env.walk d) acc
              (by simpa using hd d (List.mem_cons_self d rest))
        | false =>
            simpa using add_watch_single_ok env debug lowResource d acc
              (by simpa using hd d (List.mem_cons_self d rest))
      obtain ⟨acc1, h1, ha1⟩ := hstep
      obtain ⟨acc2, h2, ha2⟩ := ih acc1 (fun q hq => hd q (List.mem_cons_of_mem d hq))
      refine ⟨acc2, ?_, ?_⟩
      · rw [setup_watches_go, h1]
        exact h2
      · rw [ha2, ha1, List.map_cons, List.flatten_cons, List.append_assoc]

/-- **C8.** For every configured list of watch roots (whose paths, as
all command-line arguments and Linux file names, contain no NUL
byte), a failure to register the watch for one path never aborts
registration of the remaining paths: `setup_watches` attempts every
expanded path, whatever `inotify_add_watch` returns, and returns
success; and a registration failure on a path is logged iff debug mode
is active or the error is not permission-denied — so permission-denied
failures are logged only in debug/verbose mode while other failures
are always logged. -/
theorem setup_watches_never_aborts (env : WatchEnv) (debug lowResource : Bool)
    (recursiveDirs directDirs : List WPath)
    (hnul : ∀ p ∈ expandedPaths env recursiveDirs directDirs, nulFree p) :
    (∃ acc : WatchOutcome,
      setup_watches env debug lowResource recursiveDirs directDirs = .ok acc
      ∧ acc.attempted = expandedPaths env recursiveDirs directDirs)
    ∧ (∀ (p : WPath) (s : List Nat) (e : WatchErrKind) (acc : WatchOutcome),
        p.utf8 = some s → hasNul s = false →
        env.addWatch s (watchMask lowResource) = .error e →
        add_watch_single env debug lowResource p acc =
          .ok { acc with
                attempted := acc.attempted ++ [p],
                logs := acc.logs ++
                  (if debug ∨ e ≠ WatchErrKind.permissionDenied then
                    [.failedToMonitor s e] else []) }) := by
  constructor
  · have hrec : ∀ d ∈ recursiveDirs, ∀ p ∈ (if true then env.walk d else [d]), nulFree p := by
      intro d hd p hp
      refine hnul p ?_
      unfold expandedPaths
      rw [List.mem_append]
      exact Or.inl (List.mem_flatten.mpr ⟨env.walk d, List.mem_map_of_mem env.walk hd, by simpa using hp⟩)
    have hdir : ∀ d ∈ directDirs, ∀ p ∈ (if false then env.walk d else [d]), nulFree p := by
      intro d hd p hp
      refine hnul p ?_
      unfold expandedPaths
      rw [List.mem_append]
      simp at hp
      exact Or.inr (hp ▸ hd)
    obtain ⟨acc1, h1, ha1⟩ :=
      setup_watches_go_ok env debug lowResource recursiveDirs true ⟨[], [], []⟩ hrec
    obtain ⟨acc2, h2, ha2⟩ := setup_watches_go_ok env debug lowResource directDirs false acc1 hdir
    refine ⟨acc2, ?_, ?_⟩
    · rw [setup_watches, h1]
      exact h2
    · have hsing : ∀ l : List WPath, (l.map (fun d => [d])).flatten = l := by
        intro l
        induction l with
        | nil => rfl
        | cons a t ih => simp [ih]
      rw [ha2, ha1]
      unfold expandedPaths
      simp [hsing]
  · intro p s e acc hu hs he
    simp only [add_watch_single, hu, hs, he, Bool.false_eq_true, if_false]

theorem setup_watches_never_aborts_witness :
    (∀ p ∈ expandedPaths
        ⟨fun _ _ => .error WatchErrKind.permissionDenied, fun p => [p]⟩
        [⟨some [47, 117, 115, 114]⟩] [⟨some [47, 101, 116, 99]⟩], nulFree p)
    ∧ ((∃ acc : WatchOutcome,
        setup_watches ⟨fun _ _ => .error WatchErrKind.permissionDenied, fun p => [p]⟩
          false false [⟨some [47, 117, 115, 114]⟩] [⟨some [47, 101, 116, 99]⟩] = .ok acc
        ∧ acc.attempted = expandedPaths
            ⟨fun _ _ => .error WatchErrKind.permissionDenied, fun p => [p]⟩
            [⟨some [47, 117, 115, 114]⟩] [⟨some [47, 101, 116, 99]⟩])
      ∧ (∀ (p : WPath) (s : List Nat) (e : WatchErrKind) (acc : WatchOutcome),
          p.utf8 = some s → hasNul s = false →
          (⟨fun _ _ => .error WatchErrKind.permissionDenied, fun p => [p]⟩ :
              WatchEnv).addWatch s (watchMask false) = .error e →
          add_watch_single ⟨fun _ _ => .error WatchErrKind.permissionDenied, fun p => [p]⟩
            false false p acc =
            .ok { acc with
                  attempted := acc.attempted ++ [p],
                  logs := acc.logs ++
                    (if false ∨ e ≠ WatchErrKind.permissionDenied then
                      [.failedToMonitor s e] else []) })) :=
  ⟨by decide,
    setup_watches_never_aborts
      ⟨fun _ _ => .error WatchErrKind.permissionDenied, fun p => [p]⟩
      false false [⟨some [47, 117, 115, 114]⟩] [⟨some [47, 101, 116, 99]⟩] (by decide)⟩

end Rspy
